import Mathlib

/-!
Verification development for the two maintenance scripts
`replace_log_with_logger.py` and `fix_logger_method_calls.py`.

Text is modelled as `List Char`.  Python's `re.subn` with the concrete
patterns used by the scripts is modelled by executable left-to-right
scanners with non-overlapping match semantics, exactly as the `re`
module behaves on these patterns:

* `this\.#log\(` and `this\.#logger\(` are literal patterns, modelled
  by the generic literal scanner `subnLit`;
* `#log\(([^)]+)\)\s*\x7b` is modelled by `match2`/`subn2`: after
  `#log(`, the greedy `[^)]+` consumes exactly the characters up to the
  first `)` (no backtracking is possible since `[^)]` can never match
  `)`), then `\s*` consumes the whitespace run, after which `\x7b` must
  follow (backtracking into `\s*` cannot help since any earlier stop
  leaves a whitespace character, not `\x7b`);
* `(?<!#logger)(?<!this\.)#log(?!ger)(?=\s|\(|$)` is modelled by
  `subn3`, which carries the reversed list of already-consumed input
  characters so the lookbehinds inspect the original buffer, as Python
  does.  `$` (without MULTILINE) adds nothing beyond `\s|\(` plus
  end-of-string because a final newline is itself whitespace.

`\s` is modelled by the full set of characters Python's `\s` matches
for `str` patterns (the scripts do not pass `re.ASCII`): the ASCII
whitespace characters together with the Unicode whitespace code points
recognised by CPython (U+1C-U+1F, U+85, U+A0, U+1680, U+2000-U+200A,
U+2028, U+2029, U+202F, U+205F, U+3000).

Each scanner consumes at least one character of the remaining text per
step, so a fuel argument initialised with the text length makes the
recursion structural (hence kernel-reducible); `*_fuelEq` lemmas show
the fuel is irrelevant once it is at least the text length, giving the
natural unfolding equations `*_nil` / `*_cons`.
-/

/-- Opening curly brace character (written via its code point). -/
def lbrace : Char := Char.ofNat 123

/-- Python's `\s` character class for `str` patterns (no `re.ASCII`):
the code points CPython's `Py_UNICODE_ISSPACE` accepts. -/
def isPySpace (c : Char) : Bool :=
  (9 ≤ c.toNat && c.toNat ≤ 13) || c.toNat == 32 ||
  (28 ≤ c.toNat && c.toNat ≤ 31) || c.toNat == 133 || c.toNat == 160 ||
  c.toNat == 5760 || (8192 ≤ c.toNat && c.toNat ≤ 8202) ||
  c.toNat == 8232 || c.toNat == 8233 || c.toNat == 8239 ||
  c.toNat == 8287 || c.toNat == 12288

/-- Fuelled model of `re.subn` for a literal (regex-metacharacter-free)
pattern `p0 :: ps` and literal replacement `repl`: scan left to right,
replace every non-overlapping occurrence, count replacements. -/
def subnLitF (p0 : Char) (ps repl : List Char) : Nat → List Char → List Char × Nat
  | 0, t => (t, 0)
  | _ + 1, [] => ([], 0)
  | fuel + 1, c :: cs =>
    if (p0 :: ps).isPrefixOf (c :: cs) then
      let r := subnLitF p0 ps repl fuel (cs.drop ps.length)
      (repl ++ r.1, r.2 + 1)
    else
      let r := subnLitF p0 ps repl fuel cs
      (c :: r.1, r.2)

/-- `re.subn` for a literal pattern `p0 :: ps` and replacement `repl`. -/
def subnLit (p0 : Char) (ps repl t : List Char) : List Char × Nat :=
  subnLitF p0 ps repl t.length t

theorem subnLitF_fuelEq (p0 : Char) (ps repl : List Char) :
    ∀ f1 f2 t, t.length ≤ f1 → t.length ≤ f2 →
      subnLitF p0 ps repl f1 t = subnLitF p0 ps repl f2 t := by
  intro f1
  induction f1 with
  | zero =>
    intro f2 t h1 _
    have : t = [] := List.length_eq_zero.mp (Nat.le_zero.mp h1)
    subst this
    cases f2 <;> rfl
  | succ n ih =>
    intro f2 t h1 h2
    match t with
    | [] => cases f2 <;> rfl
    | c :: cs =>
      match f2 with
      | 0 => simp at h2
      | m + 1 =>
        simp only [subnLitF]
        have hd : (cs.drop ps.length).length ≤ cs.length := by
          simp [List.length_drop]
        have hcs : cs.length ≤ n := by
          simp only [List.length_cons] at h1; omega
        have hcs2 : cs.length ≤ m := by
          simp only [List.length_cons] at h2; omega
        rw [ih m _ (Nat.le_trans hd hcs) (Nat.le_trans hd hcs2), ih m _ hcs hcs2]

theorem subnLit_nil (p0 : Char) (ps repl : List Char) :
    subnLit p0 ps repl [] = ([], 0) := rfl

theorem subnLit_cons (p0 : Char) (ps repl : List Char) (c : Char) (cs : List Char) :
    subnLit p0 ps repl (c :: cs) =
      if (p0 :: ps).isPrefixOf (c :: cs) then
        (repl ++ (subnLit p0 ps repl (cs.drop ps.length)).1,
          (subnLit p0 ps repl (cs.drop ps.length)).2 + 1)
      else
        (c :: (subnLit p0 ps repl cs).1, (subnLit p0 ps repl cs).2) := by
  show subnLitF p0 ps repl (cs.length + 1) (c :: cs) = _
  simp only [subnLitF]
  have hd : (cs.drop ps.length).length ≤ cs.length := by
    simp [List.length_drop]
  unfold subnLit
  rw [subnLitF_fuelEq p0 ps repl cs.length (cs.drop ps.length).length _ hd (Nat.le_refl _)]

/-- Rule 1 of `replace_log_with_logger.py`:
`re.subn(r'this\.#log\(', 'this.#logger(', text)`. -/
def subn1 (t : List Char) : List Char × Nat :=
  subnLit 't' "his.#log(".toList "this.#logger(".toList t

/-- The single rule of `fix_logger_method_calls.py`:
`re.subn(r'this\.#logger\(', 'this.#logMessage(', text)`. -/
def subnFix (t : List Char) : List Char × Nat :=
  subnLit 't' "his.#logger(".toList "this.#logMessage(".toList t

/-- Attempt to match rule 2's pattern `#log\(([^)]+)\)\s*\x7b` at the
head of the text; on success return the captured group and the
remainder of the text after the match. -/
def match2 : List Char → Option (List Char × List Char)
  | '#' :: 'l' :: 'o' :: 'g' :: '(' :: rest =>
    match rest.dropWhile (fun c => !(c == ')')) with
    | ')' :: r2 =>
      match rest.takeWhile (fun c => !(c == ')')) with
      | [] => none
      | g0 :: gs =>
        match r2.dropWhile isPySpace with
        | c :: r4 => if c = lbrace then some (g0 :: gs, r4) else none
        | [] => none
    | _ => none
  | _ => none

theorem match2_length {t g r : List Char}
    (h : match2 t = some (g, r)) : r.length < t.length := by
  unfold match2 at h
  split at h
  · rename_i rest
    split at h
    · rename_i r2 heq
      split at h
      · exact absurd h (by simp)
      · split at h
        · rename_i g0 gs hg c r4 heq2
          split at h
          · simp only [Option.some.injEq, Prod.mk.injEq] at h
            obtain ⟨-, hr⟩ := h
            subst hr
            have h1 : (rest.dropWhile (fun c => !(c == ')'))).length ≤ rest.length :=
              (List.dropWhile_suffix _).length_le
            have h2 : (r2.dropWhile isPySpace).length ≤ r2.length :=
              (List.dropWhile_suffix _).length_le
            have h3 : r2.length + 1 = (rest.dropWhile (fun c => !(c == ')'))).length := by
              rw [heq]; simp
            have h4 : r4.length + 1 = (r2.dropWhile isPySpace).length := by
              rw [heq2]; simp
            simp only [List.length_cons]
            omega
          · exact absurd h (by simp)
        · exact absurd h (by simp)
    · exact absurd h (by simp)
  · exact absurd h (by simp)

/-- Fuelled scanner for rule 2 of `replace_log_with_logger.py`. -/
def subn2F : Nat → List Char → List Char × Nat
  | 0, t => (t, 0)
  | _ + 1, [] => ([], 0)
  | fuel + 1, c :: cs =>
    match match2 (c :: cs) with
    | some (grp, r4) =>
      let r := subn2F fuel r4
      ("#logger(".toList ++ grp ++ ')' :: ' ' :: lbrace :: r.1, r.2 + 1)
    | none =>
      let r := subn2F fuel cs
      (c :: r.1, r.2)

/-- Rule 2 of `replace_log_with_logger.py`:
`re.subn(r'#log\(([^)]+)\)\s*\x7b', r'#logger(\1) \x7b', text)`. -/
def subn2 (t : List Char) : List Char × Nat := subn2F t.length t

theorem subn2F_fuelEq : ∀ f1 f2 t, t.length ≤ f1 → t.length ≤ f2 →
    subn2F f1 t = subn2F f2 t := by
  intro f1
  induction f1 with
  | zero =>
    intro f2 t h1 _
    have : t = [] := List.length_eq_zero.mp (Nat.le_zero.mp h1)
    subst this
    cases f2 <;> rfl
  | succ n ih =>
    intro f2 t h1 h2
    match t with
    | [] => cases f2 <;> rfl
    | c :: cs =>
      match f2 with
      | 0 => simp at h2
      | m + 1 =>
        simp only [subn2F]
        have hcs : cs.length ≤ n := by
          simp only [List.length_cons] at h1; omega
        have hcs2 : cs.length ≤ m := by
          simp only [List.length_cons] at h2; omega
        cases hm : match2 (c :: cs) with
        | some gr =>
          obtain ⟨grp, r4⟩ := gr
          have hr4 : r4.length ≤ cs.length := by
            have := match2_length hm
            simp only [List.length_cons] at this
            omega
          dsimp only
          rw [ih m _ (Nat.le_trans hr4 hcs) (Nat.le_trans hr4 hcs2)]
        | none =>
          dsimp only
          rw [ih m _ hcs hcs2]

theorem subn2_nil : subn2 [] = ([], 0) := rfl

theorem subn2_cons (c : Char) (cs : List Char) :
    subn2 (c :: cs) =
      match match2 (c :: cs) with
      | some (grp, r4) =>
        ("#logger(".toList ++ grp ++ ')' :: ' ' :: lbrace :: (subn2 r4).1,
          (subn2 r4).2 + 1)
      | none => (c :: (subn2 cs).1, (subn2 cs).2) := by
  show subn2F (cs.length + 1) (c :: cs) = _
  simp only [subn2F]
  cases hm : match2 (c :: cs) with
  | some gr =>
    obtain ⟨grp, r4⟩ := gr
    have hr4 : r4.length ≤ cs.length := by
      have := match2_length hm
      simp only [List.length_cons] at this
      omega
    unfold subn2
    dsimp only
    rw [subn2F_fuelEq cs.length r4.length _ hr4 (Nat.le_refl _)]
  | none => rfl

/-- Lookbehinds `(?<!#logger)(?<!this\.)` of rule 3, checked against the
reversed list of characters of the original buffer that precede the
match position. -/
def lb3 (prev : List Char) : Bool :=
  !(prev.take 7 == ['r', 'e', 'g', 'g', 'o', 'l', '#']) &&
  !(prev.take 5 == ['.', 's', 'i', 'h', 't'])

/-- Lookaheads `(?!ger)(?=\s|\(|$)` of rule 3, checked against the text
following the matched `#log`. -/
def la3 (rest : List Char) : Bool :=
  !("ger".toList.isPrefixOf rest) &&
  (match rest with
   | [] => true
   | c :: _ => isPySpace c || c == '(')

/-- Fuelled scanner for rule 3 of `replace_log_with_logger.py`.  The
second argument is the reversed prefix of the original buffer that has
already been scanned (inspected by the lookbehinds). -/
def subn3F : Nat → List Char → List Char → List Char × Nat
  | 0, _, t => (t, 0)
  | _ + 1, _, [] => ([], 0)
  | fuel + 1, prev, c :: cs =>
    if (c == '#') && "log".toList.isPrefixOf cs && lb3 prev && la3 (cs.drop 3) then
      let r := subn3F fuel ('g' :: 'o' :: 'l' :: '#' :: prev) (cs.drop 3)
      ("#logger".toList ++ r.1, r.2 + 1)
    else
      let r := subn3F fuel (c :: prev) cs
      (c :: r.1, r.2)

/-- Rule 3 of `replace_log_with_logger.py`:
`re.subn(r'(?<!#logger)(?<!this\.)#log(?!ger)(?=\s|\(|$)', '#logger', text)`. -/
def subn3 (prev t : List Char) : List Char × Nat := subn3F t.length prev t

theorem subn3F_fuelEq : ∀ f1 f2 prev t, t.length ≤ f1 → t.length ≤ f2 →
    subn3F f1 prev t = subn3F f2 prev t := by
  intro f1
  induction f1 with
  | zero =>
    intro f2 prev t h1 _
    have : t = [] := List.length_eq_zero.mp (Nat.le_zero.mp h1)
    subst this
    cases f2 <;> rfl
  | succ n ih =>
    intro f2 prev t h1 h2
    match t with
    | [] => cases f2 <;> rfl
    | c :: cs =>
      match f2 with
      | 0 => simp at h2
      | m + 1 =>
        simp only [subn3F]
        have hd : (cs.drop 3).length ≤ cs.length := by
          simp [List.length_drop]
        have hcs : cs.length ≤ n := by
          simp only [List.length_cons] at h1; omega
        have hcs2 : cs.length ≤ m := by
          simp only [List.length_cons] at h2; omega
        rw [ih m _ _ (Nat.le_trans hd hcs) (Nat.le_trans hd hcs2), ih m _ _ hcs hcs2]

theorem subn3_nil (prev : List Char) : subn3 prev [] = ([], 0) := rfl

theorem subn3_cons (prev : List Char) (c : Char) (cs : List Char) :
    subn3 prev (c :: cs) =
      if (c == '#') && "log".toList.isPrefixOf cs && lb3 prev && la3 (cs.drop 3) then
        ("#logger".toList ++ (subn3 ('g' :: 'o' :: 'l' :: '#' :: prev) (cs.drop 3)).1,
          (subn3 ('g' :: 'o' :: 'l' :: '#' :: prev) (cs.drop 3)).2 + 1)
      else
        (c :: (subn3 (c :: prev) cs).1, (subn3 (c :: prev) cs).2) := by
  show subn3F (cs.length + 1) prev (c :: cs) = _
  simp only [subn3F]
  have hd : (cs.drop 3).length ≤ cs.length := by
    simp [List.length_drop]
  unfold subn3
  rw [subn3F_fuelEq cs.length (cs.drop 3).length _ _ hd (Nat.le_refl _)]

/-- The pattern loop of `LogToLoggerReplacer.process_file`: apply the
three rules in order to the buffer; after each rule, if its count is
positive the buffer is replaced and the count accumulated.  Returns the
final buffer and `replacements_in_file`. -/
def applyPatterns (content : List Char) : List Char × Nat :=
  let r1 := subn1 content
  let s1 := if 0 < r1.2 then (r1.1, r1.2) else (content, 0)
  let r2 := subn2 s1.1
  let s2 := if 0 < r2.2 then (r2.1, s1.2 + r2.2) else s1
  let r3 := subn3 [] s2.1
  if 0 < r3.2 then (r3.1, s2.2 + r3.2) else s2

example : applyPatterns "this.#log(a, b)".toList =
    ("this.#logger(a, b)".toList, 1) := by decide

example : subn2 ("#log(level, msg) ".toList ++ [lbrace]) =
    ("#logger(level, msg) ".toList ++ [lbrace], 1) := by decide

example : applyPatterns "x = #log;".toList = ("x = #log;".toList, 0) := by decide

example : subn3 [] ("#log".toList ++ [Char.ofNat 160]) =
    ("#logger".toList ++ [Char.ofNat 160], 1) := by decide

/-!
## Filesystem model

Paths are lists of components.  A filesystem maps a path to its text
content (if the file exists) and records which paths can be read and
written; a failing read models a missing, unreadable or undecodable
file, a failing write models an unwritable file.  Python exceptions are
modelled by `Option`: `none` means the operation raised.
-/

/-- Filesystem state: file contents plus read/write permissions. -/
structure FS where
  content : List String → Option (List Char)
  readable : List String → Bool
  writable : List String → Bool

/-- `open(p).read()`: `none` models a raised exception. -/
def readFS (fs : FS) (p : List String) : Option (List Char) :=
  match fs.content p with
  | some t => if fs.readable p then some t else none
  | none => none

/-- `open(p, 'w').write(t)`: `none` models a raised exception. -/
def writeFS (fs : FS) (p : List String) (t : List Char) : Option FS :=
  if fs.writable p then
    some { fs with content := fun q => if q = p then some t else fs.content q }
  else none

/-- `Path.exists()`. -/
def existsFS (fs : FS) (p : List String) : Bool := (fs.content p).isSome

/-- `Path.relative_to(root)`: fails (raises `ValueError`) unless `root`
is a prefix of `p`. -/
def relativeTo (root p : List String) : Option (List String) :=
  if root.isPrefixOf p then some (p.drop root.length) else none

/-- The backup root directory name used by `LogToLoggerReplacer`. -/
def backupDirName : String := "backups_log_replacement"

/-- Mirrored backup path: `backup_dir / file.relative_to(project_root)`. -/
def backupPath (root p : List String) : List String :=
  root ++ backupDirName :: p.drop root.length

/-- Completed disk writes, used to state write-ordering properties. -/
inductive Ev where
  | writeF : List String → List Char → Ev
deriving DecidableEq

/-- `LogToLoggerReplacer.process_file`, returning the new filesystem,
the `(archivo_modificado, numero_reemplazos)` result, and the trace of
completed writes in order.  Every `none` from an I/O step models the
exception caught by the `try/except`, which returns `(False, 0)`. -/
def processFileR (fs : FS) (root p : List String) :
    FS × (Bool × Nat) × List Ev :=
  match readFS fs p with
  | none => (fs, (false, 0), [])
  | some orig =>
    let r := applyPatterns orig
    if r.1 = orig then (fs, (false, 0), [])
    else
      match relativeTo root p with
      | none => (fs, (false, 0), [])
      | some rel =>
        let bp := root ++ backupDirName :: rel
        match writeFS fs bp orig with
        | none => (fs, (false, 0), [])
        | some fs1 =>
          match writeFS fs1 p r.1 with
          | none => (fs1, (false, 0), [Ev.writeF bp orig])
          | some fs2 =>
            (fs2, (true, r.2), [Ev.writeF bp orig, Ev.writeF p r.1])

/-- Accumulated counters of `LogToLoggerReplacer.run`, together with
the per-file results returned by `process_file` (printed by the
report). -/
structure RState where
  files_processed : Nat
  replacements_made : Nat
  modified : List (List String)
  results : List (List String × Bool × Nat)
deriving DecidableEq

/-- The processing loop of `LogToLoggerReplacer.run`. -/
def runReplaceAux (fs : FS) (root : List String) (st : RState) :
    List (List String) → FS × RState
  | [] => (fs, st)
  | p :: rest =>
    let x := processFileR fs root p
    let st' : RState :=
      { files_processed := st.files_processed + 1
        replacements_made := st.replacements_made + (if x.2.1.1 then x.2.1.2 else 0)
        modified := st.modified ++ (if x.2.1.1 then [p] else [])
        results := st.results ++ [(p, x.2.1)] }
    runReplaceAux x.1 root st' rest

/-- `LogToLoggerReplacer.run` restricted to its processing loop, started
from zeroed counters on the discovered file list. -/
def runReplace (fs : FS) (root : List String) (files : List (List String)) :
    FS × RState :=
  runReplaceAux fs root ⟨0, 0, [], []⟩ files

/-- The per-file results of a run, computed directly by recursion
(specification companion of `runReplaceAux`). -/
def resList (fs : FS) (root : List String) :
    List (List String) → List (List String × Bool × Nat)
  | [] => []
  | p :: rest =>
    let x := processFileR fs root p
    (p, x.2.1) :: resList x.1 root rest

/-- `LoggerMethodCallFixer.process_file`. -/
def processFileF (fs : FS) (p : List String) : FS × (Bool × Nat) :=
  match readFS fs p with
  | none => (fs, (false, 0))
  | some content =>
    let r := subnFix content
    if 0 < r.2 then
      match writeFS fs p r.1 with
      | none => (fs, (false, 0))
      | some fs' => (fs', (true, r.2))
    else (fs, (false, 0))

/-- The per-file results of the fixer's run over the targets that
exist, in input order (specification companion of `runFixAux`). -/
def resListF (fs : FS) (root : List String) :
    List (List String) → List (List String × Bool × Nat)
  | [] => []
  | rel :: rest =>
    let p := root ++ rel
    if existsFS fs p then
      let x := processFileF fs p
      (p, x.2) :: resListF x.1 root rest
    else resListF fs root rest

/-- Accumulated counters of `LoggerMethodCallFixer.run`. -/
structure FState where
  files_processed : Nat
  replacements_made : Nat
  modified : List (List String)
deriving DecidableEq

/-- The processing loop of `LoggerMethodCallFixer.run`: for each target
relative path, skip it with a warning if it does not exist, otherwise
process it and accumulate the counters. -/
def runFixAux (fs : FS) (root : List String) (st : FState) :
    List (List String) → FS × FState
  | [] => (fs, st)
  | rel :: rest =>
    let p := root ++ rel
    if existsFS fs p then
      let x := processFileF fs p
      let st' : FState :=
        { files_processed := st.files_processed + 1
          replacements_made := st.replacements_made + (if x.2.1 then x.2.2 else 0)
          modified := st.modified ++ (if x.2.1 then [p] else []) }
      runFixAux x.1 root st' rest
    else runFixAux fs root st rest

/-- `self.target_files` of `LoggerMethodCallFixer`. -/
def targetFiles : List (List String) :=
  [["src", "infrastructure", "services", "TorrentioApiService.js"],
   ["src", "infrastructure", "repositories", "CascadingMagnetRepository.js"],
   ["src", "application", "handlers", "StreamHandler.js"]]

/-- `LoggerMethodCallFixer.run`. -/
def runFix (fs : FS) (root : List String) : FS × FState :=
  runFixAux fs root ⟨0, 0, []⟩ targetFiles

/-!
## File discovery filter of `LogToLoggerReplacer.find_js_files`

The directory walk (`rglob`/`glob`) supplies candidate paths whose
string form extends the project root's string form; the filter drops
every candidate whose full path string contains one of the excluded
substrings.  Path strings are modelled as `List Char`.
-/

/-- Python's `pattern in str(file_path)` substring test. -/
def containsSub (s pat : List Char) : Bool :=
  pat.isPrefixOf s ||
  match s with
  | [] => false
  | _ :: t => containsSub t pat

/-- `excluded_patterns` of `find_js_files`. -/
def excludedPatterns : List (List Char) :=
  ["node_modules".toList, ".git".toList, "dist".toList,
   "build".toList, "coverage".toList, "EnhancedLogger.js".toList]

/-- The filtering phase of `find_js_files`: keep the candidates whose
full path string contains none of the excluded substrings. -/
def findJsFilter (jsFiles : List (List Char)) : List (List Char) :=
  jsFiles.filter (fun p => !(excludedPatterns.any (fun pat => containsSub p pat)))

/-!
## Generic list lemmas

Tools for reasoning about occurrences of a pattern around the pieces a
scanner emits.
-/

/-- `hasMismatch p a` holds when `p` and `a` disagree at some position
below both lengths; such a disagreement rules out `p` being a prefix of
`a ++ b` for every `b`. -/
def hasMismatch (p a : List Char) : Bool :=
  (p.zip a).any (fun q => !(q.1 == q.2))

theorem not_prefix_append_of_mismatch {p a : List Char}
    (h : hasMismatch p a = true) (b : List Char) : ¬ p <+: (a ++ b) := by
  intro hpre
  obtain ⟨x, hxmem, hxne⟩ := List.any_eq_true.mp h
  obtain ⟨i, hi, hget⟩ := List.getElem_of_mem hxmem
  have hip : i < p.length := by
    have := hi; simp only [List.length_zip] at this; omega
  have hia : i < a.length := by
    have := hi; simp only [List.length_zip] at this; omega
  rw [List.getElem_zip] at hget
  have hib : i < (a ++ b).length := by simp; omega
  have h1 : p[i] = (a ++ b)[i] := hpre.getElem hip
  have h2 : (a ++ b)[i] = a[i] := List.getElem_append_left hia
  rw [← hget] at hxne
  simp only [Bool.not_eq_eq_eq_not, Bool.not_true, beq_eq_false_iff_ne, ne_eq] at hxne
  exact hxne (h1.trans h2)

theorem not_prefix_of_mismatch {p a : List Char}
    (h : hasMismatch p a = true) : ¬ p <+: a := by
  have := not_prefix_append_of_mismatch h []
  rwa [List.append_nil] at this

/-- How an occurrence of `p` inside `a ++ b` relates to the junction:
it lies in `a`, lies in `b`, or straddles the boundary. -/
theorem infix_append_split {α : Type} {p a b : List α} (h : p <:+: (a ++ b)) :
    p <:+: a ∨ p <:+: b ∨
      ∃ k, 0 < k ∧ k < p.length ∧ p.take k <:+ a ∧ p.drop k <+: b := by
  obtain ⟨u, v, huv⟩ := h
  have hdropu : p ++ v = (a ++ b).drop u.length := by
    rw [← huv, List.append_assoc, List.drop_left]
  by_cases hc1 : u.length + p.length ≤ a.length
  · left
    have hu : u.length ≤ a.length := by omega
    have : p ++ v = a.drop u.length ++ b := by
      rw [hdropu, List.drop_append_eq_append_drop, Nat.sub_eq_zero_of_le hu,
        List.drop_zero]
    have hlen : p.length ≤ (a.drop u.length).length := by
      simp only [List.length_drop]; omega
    have hp : p <+: a.drop u.length := by
      have h1 : p <+: a.drop u.length ++ b := ⟨v, this⟩
      have h2 := List.prefix_iff_eq_take.mp h1
      rw [List.take_append_eq_append_take, Nat.sub_eq_zero_of_le hlen,
        List.take_zero, List.append_nil] at h2
      rw [h2]
      exact List.take_prefix _ _
    exact List.infix_iff_prefix_suffix.mpr ⟨a.drop u.length, hp, List.drop_suffix _ _⟩
  · by_cases hc2 : a.length ≤ u.length
    · right; left
      have : p ++ v = b.drop (u.length - a.length) := by
        rw [hdropu, List.drop_append_eq_append_drop,
          List.drop_of_length_le hc2, List.nil_append]
      have hp : p <+: b.drop (u.length - a.length) := ⟨v, this⟩
      exact List.infix_iff_prefix_suffix.mpr
        ⟨b.drop (u.length - a.length), hp, List.drop_suffix _ _⟩
    · right; right
      have hk2 : a.length - u.length < p.length := by omega
      have hsplit : (u ++ p.take (a.length - u.length)) ++
          (p.drop (a.length - u.length) ++ v) = a ++ b := by
        rw [List.append_assoc, ← List.append_assoc (p.take (a.length - u.length)),
          List.take_append_drop, ← List.append_assoc, huv]
      have hlen : (u ++ p.take (a.length - u.length)).length = a.length := by
        simp only [List.length_append, List.length_take]; omega
      have ha : u ++ p.take (a.length - u.length) = a := by
        have h2 := congrArg (List.take a.length) hsplit
        rwa [List.take_left' hlen, List.take_left] at h2
      have hb : p.drop (a.length - u.length) ++ v = b := by
        have h2 := congrArg (List.drop a.length) hsplit
        rwa [List.drop_left' hlen, List.drop_left] at h2
      exact ⟨a.length - u.length, by omega, hk2, ⟨u, ha⟩, ⟨v, hb⟩⟩

/-- `containsSub` computes the substring relation. -/
theorem containsSub_iff {s pat : List Char} :
    containsSub s pat = true ↔ pat <:+: s := by
  induction s with
  | nil =>
    unfold containsSub
    simp [List.infix_nil]
  | cons c t ih =>
    unfold containsSub
    rw [List.infix_cons_iff]
    simp only [Bool.or_eq_true, List.isPrefixOf_iff_prefix, ih]

/-!
## Basic lemmas about the literal scanner
-/

theorem subnLit_count_zero (p0 : Char) (ps repl : List Char) :
    ∀ t, (subnLit p0 ps repl t).2 = 0 → (subnLit p0 ps repl t).1 = t := by
  intro t
  induction t with
  | nil => intro _; rfl
  | cons c cs ih =>
    rw [subnLit_cons]
    by_cases hp : (p0 :: ps).isPrefixOf (c :: cs) = true
    · rw [if_pos hp]; intro h; simp at h
    · rw [if_neg hp]; intro h
      dsimp only at h ⊢
      rw [ih h]

theorem subnLit_no_match (p0 : Char) (ps repl : List Char) :
    ∀ t, (∀ i, i < t.length → ¬ ((p0 :: ps).isPrefixOf (t.drop i) = true)) →
      subnLit p0 ps repl t = (t, 0) := by
  intro t
  induction t with
  | nil => intro _; rfl
  | cons c cs ih =>
    intro h
    have h0 : ¬ ((p0 :: ps).isPrefixOf (c :: cs) = true) := by
      have := h 0 (by simp)
      simpa using this
    rw [subnLit_cons, if_neg h0]
    have hcs := ih (fun i hi => by
      have := h (i + 1) (by simp only [List.length_cons]; omega)
      simpa [List.drop_succ_cons] using this)
    rw [hcs]

/-!
## Claims about file discovery and the fixer's batch loop
-/

/-- Empty filesystem used by witnesses. -/
def fsEmpty : FS :=
  { content := fun _ => none
    readable := fun _ => true
    writable := fun _ => true }

/-- C10: `find_js_files` excludes a candidate whenever an excluded
substring occurs anywhere in its full path string; hence if the project
root's own path contains such a substring (e.g. a directory named
`distro` contains `dist`), every discovered file — whose path string
extends the root's — is filtered out and the returned list is empty. -/
theorem c10_excluded_root_filters_all (rootS : List Char) (files : List (List Char))
    (hex : excludedPatterns.any (fun pat => containsSub rootS pat) = true)
    (hunder : ∀ p ∈ files, rootS <+: p) :
    findJsFilter files = [] := by
  unfold findJsFilter
  rw [List.filter_eq_nil_iff]
  intro p hp
  obtain ⟨pat, hmem, hc⟩ := List.any_eq_true.mp hex
  have hinf : pat <:+: p :=
    (containsSub_iff.mp hc).trans (hunder p hp).isInfix
  have hany : excludedPatterns.any (fun pat => containsSub p pat) = true :=
    List.any_eq_true.mpr ⟨pat, hmem, containsSub_iff.mpr hinf⟩
  simp [hany]

/-- Witness for C10 at the concrete root `/home/distro`. -/
theorem c10_excluded_root_filters_all_witness :
    excludedPatterns.any (fun pat => containsSub "/home/distro".toList pat) = true ∧
    (∀ p ∈ ["/home/distro/src/app.js".toList], "/home/distro".toList <+: p) ∧
    findJsFilter ["/home/distro/src/app.js".toList] = [] :=
  ⟨by decide, by decide,
    c10_excluded_root_filters_all "/home/distro".toList _ (by decide) (by decide)⟩

/-- C8: in `fix_logger_method_calls`, a target path that does not exist
is skipped with a warning: it changes neither the filesystem nor any
counter, and the run continues exactly as if the path were absent from
the target list. -/
theorem c8_missing_target_skipped (fs : FS) (root : List String) (st : FState)
    (rel : List String) (rest : List (List String))
    (h : existsFS fs (root ++ rel) = false) :
    runFixAux fs root st (rel :: rest) = runFixAux fs root st rest := by
  conv_lhs => rw [runFixAux]
  simp [h]

/-- Witness for C8: a missing file in an otherwise empty filesystem. -/
theorem c8_missing_target_skipped_witness :
    existsFS fsEmpty (["r"] ++ ["missing.js"]) = false ∧
    runFixAux fsEmpty ["r"] ⟨0, 0, []⟩ [["missing.js"], ["a.js"]] =
      runFixAux fsEmpty ["r"] ⟨0, 0, []⟩ [["a.js"]] :=
  ⟨rfl, c8_missing_target_skipped fsEmpty ["r"] ⟨0, 0, []⟩ ["missing.js"] [["a.js"]] rfl⟩

/-!
## Batch aggregation of `LogToLoggerReplacer.run`
-/

/-- Complete case analysis of `process_file`: either some step failed
or nothing changed (result `(False, 0)`, no writes), or the backup was
written and the final write either failed or succeeded. -/
theorem processFileR_cases (fs : FS) (root p : List String) :
    processFileR fs root p = (fs, (false, 0), []) ∨
    ∃ orig rel fs1,
      readFS fs p = some orig ∧ (applyPatterns orig).1 ≠ orig ∧
      relativeTo root p = some rel ∧
      writeFS fs (root ++ backupDirName :: rel) orig = some fs1 ∧
      ((writeFS fs1 p (applyPatterns orig).1 = none ∧
         processFileR fs root p =
           (fs1, (false, 0), [Ev.writeF (root ++ backupDirName :: rel) orig])) ∨
       (∃ fs2, writeFS fs1 p (applyPatterns orig).1 = some fs2 ∧
         processFileR fs root p =
           (fs2, (true, (applyPatterns orig).2),
            [Ev.writeF (root ++ backupDirName :: rel) orig,
             Ev.writeF p (applyPatterns orig).1]))) := by
  unfold processFileR
  cases hread : readFS fs p with
  | none => exact Or.inl rfl
  | some orig =>
    dsimp only
    by_cases hch : (applyPatterns orig).1 = orig
    · rw [if_pos hch]; exact Or.inl rfl
    · rw [if_neg hch]
      cases hrel : relativeTo root p with
      | none => exact Or.inl rfl
      | some rel =>
        dsimp only
        cases hw1 : writeFS fs (root ++ backupDirName :: rel) orig with
        | none => exact Or.inl rfl
        | some fs1 =>
          dsimp only
          cases hw2 : writeFS fs1 p (applyPatterns orig).1 with
          | none =>
            exact Or.inr ⟨orig, rel, fs1, rfl, hch, rfl, hw1, Or.inl ⟨hw2, rfl⟩⟩
          | some fs2 =>
            exact Or.inr ⟨orig, rel, fs1, rfl, hch, rfl, hw1, Or.inr ⟨fs2, hw2, rfl⟩⟩

theorem processFileR_not_changed_count {fs : FS} {root p : List String}
    (h : (processFileR fs root p).2.1.1 = false) :
    (processFileR fs root p).2.1.2 = 0 := by
  rcases processFileR_cases fs root p with heq |
    ⟨orig, rel, fs1, -, -, -, -, ⟨-, heq⟩ | ⟨fs2, -, heq⟩⟩ <;>
    rw [heq] at h ⊢ <;> simp_all

theorem processFileR_ite_count (fs : FS) (root p : List String) :
    (if (processFileR fs root p).2.1.1 then (processFileR fs root p).2.1.2 else 0) =
      (processFileR fs root p).2.1.2 := by
  by_cases hb : (processFileR fs root p).2.1.1 = true
  · rw [if_pos hb]
  · rw [if_neg hb]
    exact (processFileR_not_changed_count (Bool.not_eq_true _ ▸ hb)).symm

theorem runReplaceAux_spec (root : List String) :
    ∀ (files : List (List String)) (fs : FS) (st : RState),
      (runReplaceAux fs root st files).2.files_processed =
        st.files_processed + files.length ∧
      (runReplaceAux fs root st files).2.results =
        st.results ++ resList fs root files ∧
      (runReplaceAux fs root st files).2.replacements_made =
        st.replacements_made + ((resList fs root files).map (fun r => r.2.2)).sum ∧
      (runReplaceAux fs root st files).2.modified =
        st.modified ++ ((resList fs root files).filter (fun r => r.2.1)).map (fun r => r.1) := by
  intro files
  induction files with
  | nil =>
    intro fs st
    simp [runReplaceAux, resList]
  | cons p rest ih =>
    intro fs st
    simp only [runReplaceAux, resList]
    obtain ⟨h1, h2, h3, h4⟩ := ih (processFileR fs root p).1 _
    refine ⟨?_, ?_, ?_, ?_⟩
    · rw [h1]; simp only [List.length_cons]; omega
    · rw [h2]; simp
    · rw [h3]; simp only [List.map_cons, List.sum_cons, processFileR_ite_count]; omega
    · rw [h4]
      by_cases hb : (processFileR fs root p).2.1.1 = true <;>
        simp [hb, List.filter_cons]

theorem processFileF_not_changed_count {fs : FS} {p : List String}
    (h : (processFileF fs p).2.1 = false) : (processFileF fs p).2.2 = 0 := by
  unfold processFileF at h ⊢
  cases hread : readFS fs p with
  | none => rfl
  | some content =>
    rw [hread] at h
    dsimp only at h ⊢
    by_cases hc : 0 < (subnFix content).2
    · rw [if_pos hc] at h ⊢
      cases hw : writeFS fs p (subnFix content).1 with
      | none => rfl
      | some fs2 => rw [hw] at h; simp at h
    · rw [if_neg hc] at h ⊢

theorem processFileF_ite_count (fs : FS) (p : List String) :
    (if (processFileF fs p).2.1 then (processFileF fs p).2.2 else 0) =
      (processFileF fs p).2.2 := by
  by_cases hb : (processFileF fs p).2.1 = true
  · rw [if_pos hb]
  · rw [if_neg hb]
    exact (processFileF_not_changed_count (Bool.not_eq_true _ ▸ hb)).symm

theorem runFixAux_spec (root : List String) :
    ∀ (rels : List (List String)) (fs : FS) (st : FState),
      (runFixAux fs root st rels).2.files_processed =
        st.files_processed + (resListF fs root rels).length ∧
      (runFixAux fs root st rels).2.replacements_made =
        st.replacements_made + ((resListF fs root rels).map (fun r => r.2.2)).sum ∧
      (runFixAux fs root st rels).2.modified =
        st.modified ++ ((resListF fs root rels).filter (fun r => r.2.1)).map (fun r => r.1) := by
  intro rels
  induction rels with
  | nil =>
    intro fs st
    refine ⟨by simp [runFixAux, resListF], by simp [runFixAux, resListF],
      by simp [runFixAux, resListF]⟩
  | cons rel rest ih =>
    intro fs st
    have e1 : runFixAux fs root st (rel :: rest) =
        if existsFS fs (root ++ rel) then
          runFixAux (processFileF fs (root ++ rel)).1 root
            ⟨st.files_processed + 1,
             st.replacements_made +
               (if (processFileF fs (root ++ rel)).2.1 then
                 (processFileF fs (root ++ rel)).2.2 else 0),
             st.modified ++
               (if (processFileF fs (root ++ rel)).2.1 then [root ++ rel] else [])⟩ rest
        else runFixAux fs root st rest := rfl
    have e2 : resListF fs root (rel :: rest) =
        if existsFS fs (root ++ rel) then
          (root ++ rel, (processFileF fs (root ++ rel)).2) ::
            resListF (processFileF fs (root ++ rel)).1 root rest
        else resListF fs root rest := rfl
    rw [e1, e2]
    by_cases hex : existsFS fs (root ++ rel) = true
    · rw [if_pos hex, if_pos hex]
      obtain ⟨h1, h2, h3⟩ := ih (processFileF fs (root ++ rel)).1 _
      refine ⟨?_, ?_, ?_⟩
      · rw [h1]; simp only [List.length_cons]; omega
      · rw [h2]
        simp only [List.map_cons, List.sum_cons, processFileF_ite_count]
        omega
      · rw [h3]
        by_cases hb : (processFileF fs (root ++ rel)).2.1 = true <;>
          simp [hb, List.filter_cons]
    · rw [if_neg hex, if_neg hex]
      exact ih fs st

/-- C6: at the end of a run of either script, `replacements_made`
equals the sum of the per-file replacement counts returned for the
processed files, and the reported modified-files list contains exactly
the files for which `process_file` returned `changed = true`, in input
order.  For the fixer the processed files are the targets that exist. -/
theorem c6_run_aggregation (fs : FS) (root : List String) (files : List (List String)) :
    ((runReplace fs root files).2.replacements_made =
      ((resList fs root files).map (fun r => r.2.2)).sum ∧
    (runReplace fs root files).2.modified =
      ((resList fs root files).filter (fun r => r.2.1)).map (fun r => r.1) ∧
    (runReplace fs root files).2.results = resList fs root files ∧
    (runReplace fs root files).2.files_processed = files.length) ∧
    ((runFixAux fs root ⟨0, 0, []⟩ files).2.replacements_made =
      ((resListF fs root files).map (fun r => r.2.2)).sum ∧
    (runFixAux fs root ⟨0, 0, []⟩ files).2.modified =
      ((resListF fs root files).filter (fun r => r.2.1)).map (fun r => r.1) ∧
    (runFixAux fs root ⟨0, 0, []⟩ files).2.files_processed =
      (resListF fs root files).length) := by
  constructor
  · obtain ⟨h1, h2, h3, h4⟩ := runReplaceAux_spec root files fs ⟨0, 0, [], []⟩
    exact ⟨by simpa using h3, by simpa using h4, by simpa using h2, by simpa using h1⟩
  · obtain ⟨h1, h2, h3⟩ := runFixAux_spec root files fs ⟨0, 0, []⟩
    exact ⟨by simpa using h2, by simpa using h3, by simpa using h1⟩

/-!
## Content-level lemmas for the write conditions
-/

theorem applyPatterns_count_zero {t : List Char} (h : (applyPatterns t).2 = 0) :
    (applyPatterns t).1 = t := by
  unfold applyPatterns at h ⊢
  dsimp only at h ⊢
  split_ifs at h ⊢ <;> first | rfl | omega | simp_all

theorem subnLit_length_aux (p0 : Char) (ps repl : List Char) :
    ∀ n t, t.length ≤ n →
      (subnLit p0 ps repl t).1.length + (ps.length + 1) * (subnLit p0 ps repl t).2 =
        t.length + repl.length * (subnLit p0 ps repl t).2 := by
  intro n
  induction n with
  | zero =>
    intro t ht
    have ht0 : t = [] := List.length_eq_zero.mp (Nat.le_zero.mp ht)
    subst ht0; simp [subnLit_nil]
  | succ n ih =>
    intro t ht
    match t with
    | [] => simp [subnLit_nil]
    | c :: cs =>
      rw [subnLit_cons]
      by_cases hp : (p0 :: ps).isPrefixOf (c :: cs) = true
      · rw [if_pos hp]
        have hple : ps.length ≤ cs.length := by
          have := (List.isPrefixOf_iff_prefix.mp hp).length_le
          simp only [List.length_cons] at this; omega
        have hrec := ih (cs.drop ps.length) (by
          simp only [List.length_cons] at ht
          simp only [List.length_drop]; omega)
        dsimp only
        simp only [List.length_append, List.length_cons, List.length_drop] at hrec ⊢
        rw [Nat.mul_succ, Nat.mul_succ]
        omega
      · rw [if_neg hp]
        have hrec := ih cs (by simp only [List.length_cons] at ht; omega)
        dsimp only
        simp only [List.length_cons]
        omega

/-- A positive count from the fixer's rule strictly grows the text, so
the result differs from the input. -/
theorem subnFix_pos_changed (t : List Char) (h : 0 < (subnFix t).2) :
    (subnFix t).1 ≠ t := by
  intro hEq
  have hl := subnLit_length_aux 't' "his.#logger(".toList "this.#logMessage(".toList
    t.length t (Nat.le_refl _)
  have h1 : ("his.#logger(".toList).length = 12 := rfl
  have h2 : ("this.#logMessage(".toList).length = 17 := rfl
  rw [h1, h2] at hl
  unfold subnFix at h hEq
  rw [hEq] at hl
  omega

/-!
## Path lemmas for the backup location
-/

theorem backupPath_eq {root p rel : List String}
    (hrel : relativeTo root p = some rel) :
    backupPath root p = root ++ backupDirName :: rel := by
  unfold relativeTo at hrel
  split at hrel
  · simp only [Option.some.injEq] at hrel
    rw [backupPath, hrel]
  · exact absurd hrel (by simp)

theorem backupPath_ne {root p rel : List String}
    (hrel : relativeTo root p = some rel) :
    root ++ backupDirName :: rel ≠ p := by
  unfold relativeTo at hrel
  split at hrel
  · rename_i hpre
    simp only [Option.some.injEq] at hrel
    have hp : root ++ p.drop root.length = p :=
      List.prefix_iff_eq_append.mp (List.isPrefixOf_iff_prefix.mp hpre)
    intro hEq
    have hlen1 := congrArg List.length hEq
    have hlen2 := congrArg List.length hp
    simp only [List.length_append, List.length_cons, List.length_drop] at hlen1 hlen2
    rw [← hrel] at hlen1
    simp only [List.length_drop] at hlen1
    omega
  · exact absurd hrel (by simp)

theorem resList_length (root : List String) :
    ∀ (files : List (List String)) (fs : FS),
      (resList fs root files).length = files.length := by
  intro files
  induction files with
  | nil => intro fs; rfl
  | cons p rest ih =>
    intro fs
    simp only [resList, List.length_cons, ih]

/-!
## Witness fixtures: small concrete filesystems
-/

/-- A filesystem with one readable, writable file whose content the
replacer changes. -/
def fsSample : FS :=
  { content := fun q => if q = ["proj", "a.js"] then some "this.#log(x)".toList else none
    readable := fun _ => true
    writable := fun _ => true }

/-- Same file, but reading it raises (permission/encoding error). -/
def fsUnreadable : FS :=
  { content := fun q => if q = ["proj", "a.js"] then some "this.#log(x)".toList else none
    readable := fun _ => false
    writable := fun _ => true }

/-- A filesystem whose single file the rules leave unchanged. -/
def fsNoop : FS :=
  { content := fun q => if q = ["proj", "a.js"] then some "hello".toList else none
    readable := fun _ => true
    writable := fun _ => true }

/-- A filesystem with one readable file that the fixer's rule matches,
but whose write raises. -/
def fsReadOnly : FS :=
  { content := fun q => if q = ["proj", "a.js"] then some "this.#logger(x)".toList else none
    readable := fun _ => true
    writable := fun _ => false }

/-!
## Error handling of `process_file` (C4)
-/

/-- Some I/O step of `process_file` raises: the read fails, or the file
changes and computing the backup path, writing the backup, or writing
the file back fails. -/
def fileErrorR (fs : FS) (root p : List String) : Prop :=
  readFS fs p = none ∨
  ∃ orig, readFS fs p = some orig ∧ (applyPatterns orig).1 ≠ orig ∧
    (relativeTo root p = none ∨
     writeFS fs (backupPath root p) orig = none ∨
     ∃ fs1, writeFS fs (backupPath root p) orig = some fs1 ∧
       writeFS fs1 p (applyPatterns orig).1 = none)

/-- Some I/O step of the fixer's `process_file` raises: the read fails,
or the rule matched and writing the file back fails. -/
def fileErrorF (fs : FS) (p : List String) : Prop :=
  readFS fs p = none ∨
  ∃ content, readFS fs p = some content ∧ 0 < (subnFix content).2 ∧
    writeFS fs p (subnFix content).1 = none

/-- C4: every exception inside `process_file` — in either script — is
caught and reported as `(changed, count) = (False, 0)`, and both batch
loops keep going: the replacer's run visits every file of its list, and
the fixer's run always continues with the remaining targets after
handling one.  So no per-file failure aborts a run. -/
theorem c4_errors_caught :
    (∀ fs root p, fileErrorR fs root p →
        (processFileR fs root p).2.1 = (false, 0)) ∧
    (∀ fs p, fileErrorF fs p → (processFileF fs p).2 = (false, 0)) ∧
    (∀ fs root files,
        (runReplace fs root files).2.files_processed = files.length ∧
        (runReplace fs root files).2.results.length = files.length) ∧
    (∀ fs root st rel rest, ∃ fs2 st2,
        runFixAux fs root st (rel :: rest) = runFixAux fs2 root st2 rest) := by
  refine ⟨?_, ?_, ?_, ?_⟩
  · intro fs root p herr
    rcases processFileR_cases fs root p with heq |
      ⟨orig, rel, fs1, hread, hch, hrel, hw1, hrest⟩
    · rw [heq]
    · rcases hrest with ⟨hw2, heq⟩ | ⟨fs2, hw2, heq⟩
      · rw [heq]
      · exfalso
        rcases herr with hr | ⟨orig', hr, -, herr⟩
        · rw [hread] at hr; exact absurd hr (by simp)
        · rw [hread] at hr
          simp only [Option.some.injEq] at hr
          subst hr
          rcases herr with h1 | h2 | ⟨fs1', hw1', hw2'⟩
          · rw [hrel] at h1; exact absurd h1 (by simp)
          · rw [backupPath_eq hrel, hw1] at h2; exact absurd h2 (by simp)
          · rw [backupPath_eq hrel, hw1] at hw1'
            simp only [Option.some.injEq] at hw1'
            subst hw1'
            rw [hw2] at hw2'; exact absurd hw2' (by simp)
  · intro fs p herr
    unfold processFileF
    rcases herr with hr | ⟨content, hr, hcnt, hw⟩
    · rw [hr]
    · rw [hr]
      dsimp only
      rw [if_pos hcnt, hw]
  · intro fs root files
    obtain ⟨h1, h2, -, -⟩ := runReplaceAux_spec root files fs ⟨0, 0, [], []⟩
    constructor
    · simpa using h1
    · unfold runReplace
      rw [h2]
      simp [resList_length]
  · intro fs root st rel rest
    by_cases hex : existsFS fs (root ++ rel) = true
    · refine ⟨(processFileF fs (root ++ rel)).1,
        ⟨st.files_processed + 1,
         st.replacements_made +
           (if (processFileF fs (root ++ rel)).2.1 then (processFileF fs (root ++ rel)).2.2 else 0),
         st.modified ++ (if (processFileF fs (root ++ rel)).2.1 then [root ++ rel] else [])⟩, ?_⟩
      conv_lhs => rw [runFixAux]
      rw [if_pos hex]
    · refine ⟨fs, st, ?_⟩
      conv_lhs => rw [runFixAux]
      rw [if_neg hex]

/-- Witness for C4: an unreadable file and an unwritable file both
yield `(False, 0)`; a run over the unreadable file still counts it as
processed; and the fixer's loop continues past a failing target. -/
theorem c4_errors_caught_witness :
    fileErrorR fsUnreadable ["proj"] ["proj", "a.js"] ∧
    (processFileR fsUnreadable ["proj"] ["proj", "a.js"]).2.1 = (false, 0) ∧
    fileErrorF fsReadOnly ["proj", "a.js"] ∧
    (processFileF fsReadOnly ["proj", "a.js"]).2 = (false, 0) ∧
    (runReplace fsUnreadable ["proj"] [["proj", "a.js"]]).2.files_processed = 1 ∧
    (∃ fs2 st2, runFixAux fsReadOnly ["proj"] ⟨0, 0, []⟩ [["a.js"], ["b.js"]] =
      runFixAux fs2 ["proj"] st2 [["b.js"]]) :=
  ⟨Or.inl rfl,
   c4_errors_caught.1 fsUnreadable ["proj"] ["proj", "a.js"] (Or.inl rfl),
   Or.inr ⟨"this.#logger(x)".toList, rfl, by decide, rfl⟩,
   c4_errors_caught.2.1 fsReadOnly ["proj", "a.js"]
     (Or.inr ⟨"this.#logger(x)".toList, rfl, by decide, rfl⟩),
   (c4_errors_caught.2.2.1 fsUnreadable ["proj"] [["proj", "a.js"]]).1,
   c4_errors_caught.2.2.2 fsReadOnly ["proj"] ⟨0, 0, []⟩ ["a.js"] [["b.js"]]⟩

/-!
## Write-only-on-change (C2)
-/

/-- C2: a file is written back only when the post-substitution text
differs from the original.  When the computed count is 0 the buffer is
unchanged, so no write and no backup happen and the filesystem is left
untouched; any completed write implies the transformation changed the
text; and in the fixer, whose write condition is `count > 0`, a positive
count indeed implies the text changed. -/
theorem c2_write_only_on_change :
    (∀ fs root p orig, readFS fs p = some orig → (applyPatterns orig).2 = 0 →
        processFileR fs root p = (fs, (false, 0), [])) ∧
    (∀ fs root p q c, Ev.writeF q c ∈ (processFileR fs root p).2.2 →
        ∃ orig, readFS fs p = some orig ∧ (applyPatterns orig).1 ≠ orig) ∧
    (∀ t, 0 < (subnFix t).2 → (subnFix t).1 ≠ t) := by
  refine ⟨?_, ?_, ?_⟩
  · intro fs root p orig hread hcnt
    unfold processFileR
    rw [hread]
    dsimp only
    rw [if_pos (applyPatterns_count_zero hcnt)]
  · intro fs root p q c hmem
    rcases processFileR_cases fs root p with heq |
      ⟨orig, rel, fs1, hread, hch, hrel, hw1, hrest⟩
    · rw [heq] at hmem; simp at hmem
    · exact ⟨orig, hread, hch⟩
  · exact subnFix_pos_changed

/-- Witness for C2: an unchanged file is left alone; a changed file's
writes witness the changed-text condition; the fixer's rule on a text
with one occurrence has positive count and changed output. -/
theorem c2_write_only_on_change_witness :
    (readFS fsNoop ["proj", "a.js"] = some "hello".toList ∧
      (applyPatterns "hello".toList).2 = 0 ∧
      processFileR fsNoop ["proj"] ["proj", "a.js"] = (fsNoop, (false, 0), [])) ∧
    (Ev.writeF (backupPath ["proj"] ["proj", "a.js"]) "this.#log(x)".toList ∈
        (processFileR fsSample ["proj"] ["proj", "a.js"]).2.2 ∧
      ∃ orig, readFS fsSample ["proj", "a.js"] = some orig ∧
        (applyPatterns orig).1 ≠ orig) ∧
    (0 < (subnFix "this.#logger(x)".toList).2 ∧
      (subnFix "this.#logger(x)".toList).1 ≠ "this.#logger(x)".toList) :=
  ⟨⟨rfl, by decide,
      c2_write_only_on_change.1 fsNoop ["proj"] ["proj", "a.js"] "hello".toList rfl
        (by decide)⟩,
   ⟨by decide,
      c2_write_only_on_change.2.1 fsSample ["proj"] ["proj", "a.js"]
        (backupPath ["proj"] ["proj", "a.js"]) "this.#log(x)".toList (by decide)⟩,
   ⟨by decide,
      c2_write_only_on_change.2.2 "this.#logger(x)".toList (by decide)⟩⟩

/-!
## Backup ordering and backup contents (C1, C7)
-/

/-- C1: whenever `process_file` overwrites the original file (the write
event targeting `p`), the fully completed backup write — a copy of the
pre-transformation content at the mirrored backup path — occurs strictly
earlier in the write trace; the overwrite never happens without the
backup having completed. -/
theorem c1_backup_written_before_overwrite (fs : FS) (root p : List String)
    (n : List Char) (l : Nat)
    (h : ((processFileR fs root p).2.2)[l]? = some (Ev.writeF p n)) :
    ∃ k orig, k < l ∧ readFS fs p = some orig ∧
      ((processFileR fs root p).2.2)[k]? = some (Ev.writeF (backupPath root p) orig) := by
  rcases processFileR_cases fs root p with heq |
    ⟨orig, rel, fs1, hread, hch, hrel, hw1, hrest⟩
  · rw [heq] at h; simp at h
  · have hne := backupPath_ne hrel
    rcases hrest with ⟨hw2, heq⟩ | ⟨fs2, hw2, heq⟩
    · rw [heq] at h
      match l, h with
      | 0, h =>
        exfalso
        simp only [List.getElem?_cons_zero, Option.some.injEq, Ev.writeF.injEq] at h
        exact hne h.1
      | l + 1, h => simp at h
    · rw [heq] at h ⊢
      match l, h with
      | 0, h =>
        exfalso
        simp only [List.getElem?_cons_zero, Option.some.injEq, Ev.writeF.injEq] at h
        exact hne h.1
      | 1, h =>
        refine ⟨0, orig, Nat.zero_lt_one, hread, ?_⟩
        rw [backupPath_eq hrel]
        rfl
      | l + 2, h => simp at h

/-- Witness for C1 on a concrete changing file: the overwrite is the
second trace entry and the backup write is the first. -/
theorem c1_backup_written_before_overwrite_witness :
    ((processFileR fsSample ["proj"] ["proj", "a.js"]).2.2)[1]? =
      some (Ev.writeF ["proj", "a.js"] "this.#logger(x)".toList) ∧
    ∃ k orig, k < 1 ∧ readFS fsSample ["proj", "a.js"] = some orig ∧
      ((processFileR fsSample ["proj"] ["proj", "a.js"]).2.2)[k]? =
        some (Ev.writeF (backupPath ["proj"] ["proj", "a.js"]) orig) :=
  ⟨by decide,
   c1_backup_written_before_overwrite fsSample ["proj"] ["proj", "a.js"]
     "this.#logger(x)".toList 1 (by decide)⟩

/-- C7: every backup write is a byte-for-byte copy of the file's
pre-transformation content stored at the mirrored path under the backup
root, and happens only when the transformation actually changes the
file; for an unchanged file `process_file` performs no write at all and
leaves the filesystem untouched. -/
theorem c7_backup_exact_copy_only_when_modified (fs : FS) (root p : List String) :
    (∀ q c, Ev.writeF q c ∈ (processFileR fs root p).2.2 → q ≠ p →
        q = backupPath root p ∧
        ∃ orig, readFS fs p = some orig ∧ c = orig ∧ (applyPatterns orig).1 ≠ orig) ∧
    (∀ orig, readFS fs p = some orig → (applyPatterns orig).1 = orig →
        processFileR fs root p = (fs, (false, 0), [])) := by
  constructor
  · intro q c hmem hqp
    rcases processFileR_cases fs root p with heq |
      ⟨orig, rel, fs1, hread, hch, hrel, hw1, hrest⟩
    · rw [heq] at hmem; simp at hmem
    · have hbp := backupPath_eq hrel
      rcases hrest with ⟨hw2, heq⟩ | ⟨fs2, hw2, heq⟩ <;> rw [heq] at hmem <;>
        simp only [List.mem_cons, List.mem_singleton, List.not_mem_nil,
          or_false, Ev.writeF.injEq] at hmem
      · obtain ⟨hq, hc⟩ := hmem
        exact ⟨by rw [hq, hbp], orig, hread, hc, hch⟩
      · rcases hmem with ⟨hq, hc⟩ | ⟨hq, hc⟩
        · exact ⟨by rw [hq, hbp], orig, hread, hc, hch⟩
        · exact absurd hq hqp
  · intro orig hread hch
    unfold processFileR
    rw [hread]
    dsimp only
    rw [if_pos hch]

/-- Witness for C7: on the concrete changing file the only non-target
write is the backup, an exact copy of the original; and the unchanged
file is untouched. -/
theorem c7_backup_exact_copy_only_when_modified_witness :
    (Ev.writeF (backupPath ["proj"] ["proj", "a.js"]) "this.#log(x)".toList ∈
        (processFileR fsSample ["proj"] ["proj", "a.js"]).2.2 ∧
      backupPath ["proj"] ["proj", "a.js"] ≠ ["proj", "a.js"] ∧
      backupPath ["proj"] ["proj", "a.js"] = backupPath ["proj"] ["proj", "a.js"] ∧
      ∃ orig, readFS fsSample ["proj", "a.js"] = some orig ∧
        "this.#log(x)".toList = orig ∧ (applyPatterns orig).1 ≠ orig) ∧
    (readFS fsNoop ["proj", "a.js"] = some "hello".toList ∧
      (applyPatterns "hello".toList).1 = "hello".toList ∧
      processFileR fsNoop ["proj"] ["proj", "a.js"] = (fsNoop, (false, 0), [])) :=
  ⟨⟨by decide, by decide, by decide,
      ((c7_backup_exact_copy_only_when_modified fsSample ["proj"] ["proj", "a.js"]).1
        (backupPath ["proj"] ["proj", "a.js"]) "this.#log(x)".toList
        (by decide) (by decide)).2⟩,
   ⟨rfl, by decide,
      (c7_backup_exact_copy_only_when_modified fsNoop ["proj"] ["proj", "a.js"]).2
        "hello".toList rfl (by decide)⟩⟩

/-!
## Rule 3's matching condition (C9)
-/

/-- The character right after an occurrence of `#log` at position `i`
is neither whitespace nor `(` (in particular the occurrence is not at
the end of the text). -/
def afterOk (t : List Char) (i : Nat) : Bool :=
  match t[i + 4]? with
  | some c => !(isPySpace c) && !(c == '(')
  | none => false

theorem match2_some_shape {u g r : List Char} (h : match2 u = some (g, r)) :
    ∃ rest, u = '#' :: 'l' :: 'o' :: 'g' :: '(' :: rest := by
  unfold match2 at h
  split at h
  · rename_i rest
    exact ⟨rest, rfl⟩
  · exact absurd h (by simp)

theorem subn2_no_match : ∀ t : List Char,
    (∀ i, i < t.length → ∀ g r, match2 (t.drop i) ≠ some (g, r)) →
    subn2 t = (t, 0) := by
  intro t
  induction t with
  | nil => intro _; rfl
  | cons c cs ih =>
    intro h
    rw [subn2_cons]
    cases hm : match2 (c :: cs) with
    | some gr =>
      exfalso
      exact h 0 (by simp) gr.1 gr.2 (by simpa using hm)
    | none =>
      dsimp only
      rw [ih (fun i hi g r => by
        have := h (i + 1) (by simp only [List.length_cons]; omega) g r
        simpa [List.drop_succ_cons] using this)]

theorem subn3_no_match : ∀ (t prev : List Char),
    (∀ i, i < t.length → "log".toList.isPrefixOf (t.drop (i + 1)) = true →
      t[i]? = some '#' → la3 (t.drop (i + 4)) = false) →
    subn3 prev t = (t, 0) := by
  intro t
  induction t with
  | nil => intro prev _; rfl
  | cons c cs ih =>
    intro prev h
    rw [subn3_cons]
    have hcond : ((c == '#') && "log".toList.isPrefixOf cs &&
        lb3 prev && la3 (cs.drop 3)) = false := by
      cases h1 : (c == '#') with
      | false => simp [h1]
      | true =>
        cases h2 : "log".toList.isPrefixOf cs with
        | false => simp [h2]
        | true =>
          have hla := h 0 (by simp) (by simpa using h2)
            (by rw [List.getElem?_cons_zero]; exact congrArg some (eq_of_beq h1))
          simp only [List.drop_succ_cons] at hla
          simp [hla]
    rw [hcond, if_neg (by simp)]
    rw [ih (c :: prev) (fun i hi hpre hget => by
      have := h (i + 1) (by simp only [List.length_cons]; omega)
        (by simpa [List.drop_succ_cons] using hpre)
        (by simpa using hget)
      simpa [List.drop_succ_cons] using this)]

theorem subn1_no_match (t : List Char)
    (h : ∀ i, i < t.length → "#log".toList.isPrefixOf (t.drop i) = true →
      afterOk t i = true) :
    subn1 t = (t, 0) := by
  unfold subn1
  apply subnLit_no_match
  intro i hi hpre
  obtain ⟨v, hv⟩ := List.isPrefixOf_iff_prefix.mp hpre
  have hlen : i + 10 ≤ t.length := by
    have h9 : ("his.#log(".toList).length = 9 := rfl
    have h1 := congrArg List.length hv
    simp only [List.length_cons, List.length_append, List.length_drop, h9] at h1
    omega
  have hdrop5 : t.drop (i + 5) = '#' :: 'l' :: 'o' :: 'g' :: '(' :: v := by
    have : t.drop (i + 5) = (t.drop i).drop 5 := by
      rw [List.drop_drop]
    rw [this, ← hv]
    rfl
  have hocc : "#log".toList.isPrefixOf (t.drop (i + 5)) = true := by
    rw [hdrop5]; rfl
  have hafter := h (i + 5) (by omega) hocc
  unfold afterOk at hafter
  have hget : t[i + 5 + 4]? = some '(' := by
    have h1 : (t.drop (i + 5))[4]? = some '(' := by
      rw [hdrop5]
      simp [List.getElem?_cons_succ, List.getElem?_cons_zero]
    rw [List.getElem?_drop] at h1
    have he : i + 5 + 4 = (i + 5) + 4 := rfl
    rw [he]
    exact h1
  rw [hget] at hafter
  simp at hafter

/-- C9: rule 3 replaces a bare `#log` only when it is immediately
followed by whitespace, `(` or the end of the text, and skips
occurrences preceded by `this.`.  Consequently a text all of whose
`#log` occurrences are followed by some other character is left
completely unchanged (with count 0) by the whole three-rule pass, and a
text all of whose `#log` occurrences are preceded by `this.` is left
unchanged by rule 3. -/
theorem c9_rule3_guards :
    (∀ t : List Char,
      (∀ i, i < t.length → "#log".toList.isPrefixOf (t.drop i) = true →
        afterOk t i = true) →
      applyPatterns t = (t, 0)) ∧
    (∀ t : List Char,
      (∀ i, i < t.length → "#log".toList.isPrefixOf (t.drop i) = true →
        5 ≤ i ∧ (t.drop (i - 5)).take 5 = "this.".toList) →
      subn3 [] t = (t, 0)) := by
  constructor
  · intro t h
    have h1 : subn1 t = (t, 0) := subn1_no_match t h
    have h2 : subn2 t = (t, 0) := by
      apply subn2_no_match
      intro i hi g r hm
      obtain ⟨rest, hrest⟩ := match2_some_shape hm
      have hocc : "#log".toList.isPrefixOf (t.drop i) = true := by
        rw [hrest]; rfl
      have hafter := h i hi hocc
      unfold afterOk at hafter
      have hget : t[i + 4]? = some '(' := by
        have hg : (t.drop i)[4]? = some '(' := by
          rw [hrest]
          simp [List.getElem?_cons_succ, List.getElem?_cons_zero]
        rw [List.getElem?_drop] at hg
        exact hg
      rw [hget] at hafter
      simp at hafter
    have h3 : subn3 [] t = (t, 0) := by
      apply subn3_no_match
      intro i hi hpre hget
      have hocc : "#log".toList.isPrefixOf (t.drop i) = true := by
        have hd : t.drop i = '#' :: t.drop (i + 1) := by
          rw [List.drop_eq_getElem_cons hi]
          congr 1
          have := List.getElem?_eq_getElem hi
          rw [hget] at this
          exact (Option.some.injEq _ _ ▸ this.symm)
        rw [hd]
        obtain ⟨v, hv⟩ := List.isPrefixOf_iff_prefix.mp hpre
        apply List.isPrefixOf_iff_prefix.mpr
        exact ⟨v, by rw [← hv]; rfl⟩
      have hafter := h i hi hocc
      unfold afterOk at hafter
      unfold la3
      cases hg4 : t[i + 4]? with
      | none =>
        rw [hg4] at hafter; simp at hafter
      | some c4 =>
        rw [hg4] at hafter
        simp only [Bool.and_eq_true, Bool.not_eq_true'] at hafter
        have hd4 : t.drop (i + 4) = c4 :: t.drop (i + 5) := by
          have hi4 : i + 4 < t.length := by
            by_contra hcon
            rw [List.getElem?_eq_none (by omega)] at hg4
            exact absurd hg4 (by simp)
          rw [List.drop_eq_getElem_cons hi4]
          congr 1
          have := List.getElem?_eq_getElem hi4
          rw [hg4] at this
          exact (Option.some.injEq _ _ ▸ this.symm)
        rw [hd4]
        simp [hafter.1, hafter.2]
    simp [applyPatterns, h1, h2, h3]
  · intro t h
    have aux : ∀ (u prev : List Char),
        (∀ j, j < u.length → "#log".toList.isPrefixOf (u.drop j) = true →
          ['.', 's', 'i', 'h', 't'].isPrefixOf ((u.take j).reverse ++ prev) = true) →
        subn3 prev u = (u, 0) := by
      intro u
      induction u with
      | nil => intro prev _; rfl
      | cons c cs ih =>
        intro prev hp
        rw [subn3_cons]
        have hcond : ((c == '#') && "log".toList.isPrefixOf cs &&
            lb3 prev && la3 (cs.drop 3)) = false := by
          cases h1 : (c == '#') with
          | false => simp [h1]
          | true =>
            cases h2 : "log".toList.isPrefixOf cs with
            | false => simp [h2]
            | true =>
              have hocc : "#log".toList.isPrefixOf ((c :: cs).drop 0) = true := by
                have hc : c = '#' := eq_of_beq h1
                subst hc
                simp only [List.drop_zero]
                show (('#' :: "log".toList).isPrefixOf ('#' :: cs)) = true
                simp only [List.isPrefixOf, Bool.and_eq_true]
                exact ⟨by simp, h2⟩
              have hpre := hp 0 (by simp) hocc
              simp only [List.take_zero, List.reverse_nil, List.nil_append] at hpre
              have hlb : lb3 prev = false := by
                unfold lb3
                have : prev.take 5 = ['.', 's', 'i', 'h', 't'] := by
                  have := List.prefix_iff_eq_take.mp (List.isPrefixOf_iff_prefix.mp hpre)
                  exact this.symm
                simp [this]
              simp [hlb]
        rw [hcond, if_neg (by simp)]
        rw [ih (c :: prev) (fun j hj hocc => by
          have := hp (j + 1) (by simp only [List.length_cons]; omega)
            (by simpa [List.drop_succ_cons] using hocc)
          rw [List.take_succ_cons, List.reverse_cons, List.append_assoc] at this
          simpa using this)]
    apply aux
    intro j hj hocc
    obtain ⟨h5, htake⟩ := h j hj hocc
    have hsplit : t.take j = t.take (j - 5) ++ (t.drop (j - 5)).take 5 := by
      conv_lhs => rw [show j = (j - 5) + 5 by omega]
      rw [List.take_add]
    rw [List.append_nil]
    apply List.isPrefixOf_iff_prefix.mpr
    have hsuf : "this.".toList <:+ t.take j := by
      rw [hsplit, htake]
      exact ⟨t.take (j - 5), rfl⟩
    have : ("this.".toList).reverse <+: (t.take j).reverse :=
      List.reverse_prefix.mpr hsuf
    exact this

/-- Witness for C9: `x = #log;y` (occurrence followed by `;`) survives
the whole pass untouched; `this.#log x` (occurrence preceded by
`this.`) is left unchanged by rule 3. -/
theorem c9_rule3_guards_witness :
    ((∀ i, i < ("x = #log;y".toList).length →
        "#log".toList.isPrefixOf (("x = #log;y".toList).drop i) = true →
        afterOk "x = #log;y".toList i = true) ∧
      applyPatterns "x = #log;y".toList = ("x = #log;y".toList, 0)) ∧
    ((∀ i, i < ("this.#log x".toList).length →
        "#log".toList.isPrefixOf (("this.#log x".toList).drop i) = true →
        5 ≤ i ∧ (("this.#log x".toList).drop (i - 5)).take 5 = "this.".toList) ∧
      subn3 [] "this.#log x".toList = ("this.#log x".toList, 0)) :=
  ⟨⟨by decide, c9_rule3_guards.1 "x = #log;y".toList (by decide)⟩,
   ⟨by decide, c9_rule3_guards.2 "this.#log x".toList (by decide)⟩⟩

/-!
## Occurrences across the output of the literal scanner
-/

/-- A prefix of the output of `subnLit` that is a proper suffix
`g.drop k` of a tracked pattern `g` must already be a prefix of the
input, provided every such suffix mismatches the replacement text. -/
theorem subnLit_prefix_reflect (p0 : Char) (ps repl g : List Char)
    (hmis : ∀ k, k < g.length → 1 ≤ k → hasMismatch (g.drop k) repl = true) :
    ∀ n u k, u.length ≤ n → 1 ≤ k → k ≤ g.length →
      (g.drop k) <+: (subnLit p0 ps repl u).1 → (g.drop k) <+: u := by
  intro n
  induction n with
  | zero =>
    intro u k hu h1 h2 hp
    have hu0 : u = [] := List.length_eq_zero.mp (Nat.le_zero.mp hu)
    subst hu0
    rw [subnLit_nil] at hp
    have : g.drop k = [] := List.prefix_nil.mp hp
    rw [this]
  | succ n ih =>
    intro u k hu h1 h2 hp
    match u with
    | [] =>
      rw [subnLit_nil] at hp
      have : g.drop k = [] := List.prefix_nil.mp hp
      rw [this]
    | c :: cs =>
      rw [subnLit_cons] at hp
      by_cases hk : k = g.length
      · subst hk
        rw [List.drop_length]
        exact List.nil_prefix
      · have hklt : k < g.length := by omega
        by_cases hpre : (p0 :: ps).isPrefixOf (c :: cs) = true
        · rw [if_pos hpre] at hp
          dsimp only at hp
          exact absurd hp (not_prefix_append_of_mismatch (hmis k hklt h1) _)
        · rw [if_neg hpre] at hp
          dsimp only at hp
          have hdk : g.drop k = g[k] :: g.drop (k + 1) := List.drop_eq_getElem_cons hklt
          rw [hdk] at hp ⊢
          rw [List.cons_prefix_iff] at hp ⊢
          obtain ⟨hc, htail⟩ := hp
          have hlen : cs.length ≤ n := by
            simp only [List.length_cons] at hu; omega
          exact ⟨hc, ih cs (k + 1) hlen (by omega) (by omega) htail⟩

/-- The output of `subnLit` contains no occurrence of the scanner's own
pattern, provided the pattern cannot occur inside the replacement or
straddle its boundaries. -/
theorem subnLit_removes_pattern (p0 : Char) (ps repl : List Char)
    (hg_repl : ¬ (p0 :: ps) <:+: repl)
    (hstraddle : ∀ k, k < (p0 :: ps).length → 0 < k → ¬ ((p0 :: ps).take k) <:+ repl)
    (hmis : ∀ k, k < (p0 :: ps).length → 1 ≤ k →
      hasMismatch ((p0 :: ps).drop k) repl = true) :
    ∀ n u, u.length ≤ n → ¬ (p0 :: ps) <:+: (subnLit p0 ps repl u).1 := by
  intro n
  induction n with
  | zero =>
    intro u hu
    have hu0 : u = [] := List.length_eq_zero.mp (Nat.le_zero.mp hu)
    subst hu0
    rw [subnLit_nil]
    simp
  | succ n ih =>
    intro u hu
    match u with
    | [] => rw [subnLit_nil]; simp
    | c :: cs =>
      rw [subnLit_cons]
      have hlen : cs.length ≤ n := by
        simp only [List.length_cons] at hu; omega
      by_cases hpre : (p0 :: ps).isPrefixOf (c :: cs) = true
      · rw [if_pos hpre]
        dsimp only
        intro hinf
        rcases infix_append_split hinf with h | h | ⟨k, hk0, hklen, hkl, -⟩
        · exact hg_repl h
        · exact ih (cs.drop ps.length)
            (Nat.le_trans (by simp [List.length_drop]; omega) (Nat.le_refl n)) h
        · exact hstraddle k hklen hk0 hkl
      · rw [if_neg hpre]
        dsimp only
        intro hinf
        rw [List.infix_cons_iff] at hinf
        rcases hinf with hpre2 | hinf2
        · rw [List.cons_prefix_iff] at hpre2
          obtain ⟨hc, htail⟩ := hpre2
          have hps : ps <+: cs :=
            subnLit_prefix_reflect p0 ps repl (p0 :: ps) hmis n cs 1 hlen
              (Nat.le_refl 1) (by simp) htail
          exact hpre (List.isPrefixOf_iff_prefix.mpr (List.cons_prefix_iff.mpr ⟨hc, hps⟩))
        · exact ih cs hlen hinf2

/-- `subnLit` creates no new occurrence of a foreign pattern `g` that
cannot occur inside the replacement or straddle its boundaries. -/
theorem subnLit_preserves_no_occ (p0 : Char) (ps repl g : List Char)
    (hgne : g ≠ [])
    (hg_repl : ¬ g <:+: repl)
    (hstraddle : ∀ k, k < g.length → 0 < k → ¬ (g.take k) <:+ repl)
    (hmis : ∀ k, k < g.length → 1 ≤ k → hasMismatch (g.drop k) repl = true) :
    ∀ n u, u.length ≤ n → ¬ g <:+: u → ¬ g <:+: (subnLit p0 ps repl u).1 := by
  intro n
  induction n with
  | zero =>
    intro u hu hng
    have hu0 : u = [] := List.length_eq_zero.mp (Nat.le_zero.mp hu)
    subst hu0
    rw [subnLit_nil]
    exact hng
  | succ n ih =>
    intro u hu hng
    match u with
    | [] => rw [subnLit_nil]; exact hng
    | c :: cs =>
      rw [subnLit_cons]
      have hlen : cs.length ≤ n := by
        simp only [List.length_cons] at hu; omega
      have hngcs : ¬ g <:+: cs := fun h => hng (List.infix_cons h)
      by_cases hpre : (p0 :: ps).isPrefixOf (c :: cs) = true
      · rw [if_pos hpre]
        dsimp only
        intro hinf
        have hngd : ¬ g <:+: cs.drop ps.length :=
          fun h => hngcs (h.trans (List.drop_suffix _ _).isInfix)
        rcases infix_append_split hinf with h | h | ⟨k, hk0, hklen, hkl, -⟩
        · exact hg_repl h
        · exact ih (cs.drop ps.length)
            (Nat.le_trans (by simp [List.length_drop]; omega) (Nat.le_refl n)) hngd h
        · exact hstraddle k hklen hk0 hkl
      · rw [if_neg hpre]
        dsimp only
        intro hinf
        rw [List.infix_cons_iff] at hinf
        rcases hinf with hpre2 | hinf2
        · match g, hgne with
          | g0 :: gt, _ =>
            rw [List.cons_prefix_iff] at hpre2
            obtain ⟨hc, htail⟩ := hpre2
            have hgt : gt <+: cs :=
              subnLit_prefix_reflect p0 ps repl (g0 :: gt)
                (by simpa using hmis) n cs 1 hlen (Nat.le_refl 1) (by simp)
                (by simpa using htail)
            exact hng (List.cons_prefix_iff.mpr ⟨hc, hgt⟩).isInfix
        · exact ih cs hlen hngcs hinf2

/-- No occurrence of a nonempty pattern anywhere means the literal
scanner finds no match. -/
theorem no_occ_no_match (g u : List Char) (hng : ¬ g <:+: u) :
    ∀ i, i < u.length → ¬ (g.isPrefixOf (u.drop i) = true) := by
  intro i _ hp
  exact hng (List.infix_iff_prefix_suffix.mpr
    ⟨u.drop i, List.isPrefixOf_iff_prefix.mp hp, List.drop_suffix _ _⟩)

/-!
## Idempotence (C5)

The general claim is false: even though none of the replacement texts
of `replace_log_with_logger` matches its own rule's pattern, a second
application of the three-rule sequence can perform further
substitutions.  On `#log(z#logger#log(x) \x7b` the first pass rewrites
the whole text by rule 2 into `#logger(z#logger#log(x) \x7b`, whose
inner `#log(` (copied inside the capture group) is protected from rule
3 by the `(?<!#logger)` lookbehind; the second pass then rewrites it by
rule 2.  The fixer's single rule set, by contrast, is idempotent.
-/

/-- Counterexample to C5 as stated: each replacement text of
`replace_log_with_logger` is unmatched by its own rule, yet the second
application of the rule sequence to the output of the first performs a
further substitution and changes the text. -/
theorem c5_counterexample :
    (subn1 "this.#logger(".toList).2 = 0 ∧
    (subn2 ("#logger(x) ".toList ++ [lbrace])).2 = 0 ∧
    (subn3 [] "#logger".toList).2 = 0 ∧
    (applyPatterns ("#log(z#logger#log(x) ".toList ++ [lbrace])).1 =
      ("#logger(z#logger#log(x) ".toList ++ [lbrace]) ∧
    (applyPatterns (applyPatterns ("#log(z#logger#log(x) ".toList ++ [lbrace])).1).2 = 1 ∧
    (applyPatterns (applyPatterns ("#log(z#logger#log(x) ".toList ++ [lbrace])).1).1 ≠
      (applyPatterns ("#log(z#logger#log(x) ".toList ++ [lbrace])).1 := by
  refine ⟨by decide, by decide, by decide, by decide, by decide, by decide⟩

/-- C5 amended: the fixer's single rule set is idempotent — applying
`this\.#logger\( → this.#logMessage(` a second time to the output of a
first application performs 0 substitutions and returns the text
unchanged, for every input text. -/
theorem c5_amended_fix_idempotent (t : List Char) :
    subnFix ((subnFix t).1) = ((subnFix t).1, 0) := by
  have hni : ¬ ('t' :: "his.#logger(".toList) <:+: (subnFix t).1 := by
    unfold subnFix
    exact subnLit_removes_pattern 't' "his.#logger(".toList "this.#logMessage(".toList
      (by decide) (by decide) (by decide) t.length t (Nat.le_refl _)
  unfold subnFix
  exact subnLit_no_match 't' "his.#logger(".toList "this.#logMessage(".toList
    ((subnFix t).1) (no_occ_no_match _ _ hni)

/-!
## No double replacement (C3)

The tracked artefact is the substring `#loggerger`, which a wrong rule
ordering could create by rewriting the `#log` prefix of an already
produced `#logger`.
-/

/-- The double-replacement artefact `#loggerger`. -/
def dblPat : List Char := "#loggerger".toList

/-- Full decomposition of the text at a successful rule-2 match. -/
theorem match2_some_spec {t g r : List Char} (h : match2 t = some (g, r)) :
    ∃ ws, t = "#log(".toList ++ g ++ ')' :: (ws ++ lbrace :: r) := by
  unfold match2 at h
  split at h
  · rename_i rest
    split at h
    · rename_i r2 heq
      split at h
      · exact absurd h (by simp)
      · split at h
        · rename_i junk1 g0 gs hTake junk2 c r4 heq2
          split at h
          · rename_i hc
            simp only [Option.some.injEq, Prod.mk.injEq] at h
            obtain ⟨hg', hr⟩ := h
            refine ⟨r2.takeWhile isPySpace, ?_⟩
            have h5 : rest = (g0 :: gs) ++ ')' :: r2 := by
              have h5' := List.takeWhile_append_dropWhile (fun c => !(c == ')')) rest
              rw [hTake, heq] at h5'
              exact h5'.symm
            have h6 : r2 = r2.takeWhile isPySpace ++ lbrace :: r4 := by
              have h6' := List.takeWhile_append_dropWhile isPySpace r2
              rw [heq2, hc] at h6'
              exact h6'.symm
            rw [← hg', ← hr]
            show '#' :: 'l' :: 'o' :: 'g' :: '(' :: rest = _
            rw [h5]
            conv_lhs => rw [h6]
            simp
          · exact absurd h (by simp)
        · exact absurd h (by simp)
    · exact absurd h (by simp)
  · exact absurd h (by simp)

/-- Analogue of `subnLit_prefix_reflect` for the rule-2 scanner: proper
suffixes of `#loggerger` mismatch the rule-2 replacement head, so a
prefix of the output reflects to a prefix of the input. -/
theorem subn2_prefix_reflect :
    ∀ n u k, u.length ≤ n → 1 ≤ k → k ≤ 10 →
      (dblPat.drop k) <+: (subn2 u).1 → (dblPat.drop k) <+: u := by
  intro n
  induction n with
  | zero =>
    intro u k hu h1 h2 hp
    have hu0 : u = [] := List.length_eq_zero.mp (Nat.le_zero.mp hu)
    subst hu0
    rw [subn2_nil] at hp
    have : dblPat.drop k = [] := List.prefix_nil.mp hp
    rw [this]
  | succ n ih =>
    intro u k hu h1 h2 hp
    match u with
    | [] =>
      rw [subn2_nil] at hp
      have : dblPat.drop k = [] := List.prefix_nil.mp hp
      rw [this]
    | c :: cs =>
      rw [subn2_cons] at hp
      have hlen : cs.length ≤ n := by
        simp only [List.length_cons] at hu; omega
      by_cases hk : k = 10
      · subst hk
        have h10 : dblPat.drop 10 = [] := by decide
        rw [h10]
        exact List.nil_prefix
      · have hklt : k < 10 := by omega
        cases hm : match2 (c :: cs) with
        | some gr =>
          rw [hm] at hp
          obtain ⟨grp, r4⟩ := gr
          dsimp only at hp
          rw [List.append_assoc] at hp
          exfalso
          have hmm : hasMismatch (dblPat.drop k) "#logger(".toList = true := by
            have hall : ∀ j, j < 10 → 1 ≤ j →
                hasMismatch (dblPat.drop j) "#logger(".toList = true := by decide
            exact hall k hklt h1
          exact not_prefix_append_of_mismatch hmm _ hp
        | none =>
          rw [hm] at hp
          dsimp only at hp
          have hdk : dblPat.drop k = dblPat[k] :: dblPat.drop (k + 1) :=
            List.drop_eq_getElem_cons (by simpa using hklt)
          rw [hdk] at hp ⊢
          rw [List.cons_prefix_iff] at hp ⊢
          obtain ⟨hc, htail⟩ := hp
          exact ⟨hc, ih cs (k + 1) hlen (by omega) (by omega) htail⟩

/-- Rule 2 creates no occurrence of `#loggerger`. -/
theorem subn2_preserves_no_dbl :
    ∀ n u, u.length ≤ n → ¬ dblPat <:+: u → ¬ dblPat <:+: (subn2 u).1 := by
  intro n
  induction n with
  | zero =>
    intro u hu hng
    have hu0 : u = [] := List.length_eq_zero.mp (Nat.le_zero.mp hu)
    subst hu0
    rw [subn2_nil]
    exact hng
  | succ n ih =>
    intro u hu hng
    match u with
    | [] => rw [subn2_nil]; exact hng
    | c :: cs =>
      rw [subn2_cons]
      have hlen : cs.length ≤ n := by
        simp only [List.length_cons] at hu; omega
      have hngcs : ¬ dblPat <:+: cs := fun h => hng (List.infix_cons h)
      cases hm : match2 (c :: cs) with
      | some gr =>
        obtain ⟨grp, r4⟩ := gr
        dsimp only
        obtain ⟨ws, hdec⟩ := match2_some_spec hm
        have hr4len : r4.length ≤ n := by
          have := match2_length hm
          simp only [List.length_cons] at this
          omega
        have hngr4 : ¬ dblPat <:+: r4 := by
          intro hin
          apply hng
          refine hin.trans (List.IsSuffix.isInfix ⟨"#log(".toList ++ grp ++ ')' :: ws ++ [lbrace], ?_⟩)
          rw [hdec]
          simp
        have hnggrp : ¬ dblPat <:+: grp := by
          intro hin
          apply hng
          refine hin.trans ⟨"#log(".toList, ')' :: (ws ++ lbrace :: r4), ?_⟩
          rw [hdec]
        have hrec : ¬ dblPat <:+: (subn2 r4).1 := ih r4 hr4len hngr4
        intro hinf
        rcases infix_append_split hinf with hA | hB | ⟨k, hk0, hklen, -, hkr⟩
        · rcases infix_append_split hA with hC | hD | ⟨k, hk0, hklen, hkl, -⟩
          · exact absurd hC (by decide)
          · exact hnggrp hD
          · have hklen10 : k < 10 := by simpa using hklen
            have hall : ∀ j, j < 10 → 0 < j →
                ¬ (dblPat.take j) <:+ "#logger(".toList := by decide
            exact hall k hklen10 hk0 hkl
        · have hd1 : dblPat = '#' :: dblPat.drop 1 := by decide
          rw [List.infix_cons_iff] at hB
          rcases hB with hp1 | hB
          · rw [hd1, List.cons_prefix_iff] at hp1
            exact absurd hp1.1 (by decide)
          · rw [List.infix_cons_iff] at hB
            rcases hB with hp2 | hB
            · rw [hd1, List.cons_prefix_iff] at hp2
              exact absurd hp2.1 (by decide)
            · rw [List.infix_cons_iff] at hB
              rcases hB with hp3 | hB
              · rw [hd1, List.cons_prefix_iff] at hp3
                exact absurd hp3.1 (by decide)
              · exact hrec hB
        · have hklen10 : k < 10 := by simpa using hklen
          have hdk : dblPat.drop k = dblPat[k] :: dblPat.drop (k + 1) :=
            List.drop_eq_getElem_cons (by simpa using hklen10)
          rw [hdk, List.cons_prefix_iff] at hkr
          have hall : ∀ j, (hj : j < dblPat.length) → dblPat[j] ≠ ')' := by decide
          exact hall k (by simpa using hklen10) hkr.1
      | none =>
        dsimp only
        intro hinf
        rw [List.infix_cons_iff] at hinf
        rcases hinf with hpre | hinf2
        · have hd1 : dblPat = '#' :: dblPat.drop 1 := by decide
          rw [hd1, List.cons_prefix_iff] at hpre
          obtain ⟨hc, htail⟩ := hpre
          have h1 : dblPat.drop 1 <+: cs :=
            subn2_prefix_reflect n cs 1 hlen (Nat.le_refl 1) (by omega) htail
          exact hng (by rw [hd1]; exact (List.cons_prefix_iff.mpr ⟨hc, h1⟩).isInfix)
        · exact (ih cs hlen hngcs) hinf2

/-- Analogue of `subnLit_prefix_reflect` for the rule-3 scanner. -/
theorem subn3_prefix_reflect :
    ∀ n u prev k, u.length ≤ n → 1 ≤ k → k ≤ 10 →
      (dblPat.drop k) <+: (subn3 prev u).1 → (dblPat.drop k) <+: u := by
  intro n
  induction n with
  | zero =>
    intro u prev k hu h1 h2 hp
    have hu0 : u = [] := List.length_eq_zero.mp (Nat.le_zero.mp hu)
    subst hu0
    rw [subn3_nil] at hp
    have : dblPat.drop k = [] := List.prefix_nil.mp hp
    rw [this]
  | succ n ih =>
    intro u prev k hu h1 h2 hp
    match u with
    | [] =>
      rw [subn3_nil] at hp
      have : dblPat.drop k = [] := List.prefix_nil.mp hp
      rw [this]
    | c :: cs =>
      rw [subn3_cons] at hp
      have hlen : cs.length ≤ n := by
        simp only [List.length_cons] at hu; omega
      by_cases hk : k = 10
      · subst hk
        have h10 : dblPat.drop 10 = [] := by decide
        rw [h10]
        exact List.nil_prefix
      · have hklt : k < 10 := by omega
        by_cases hcond : ((c == '#') && "log".toList.isPrefixOf cs &&
            lb3 prev && la3 (cs.drop 3)) = true
        · rw [if_pos hcond] at hp
          dsimp only at hp
          exfalso
          have hmm : hasMismatch (dblPat.drop k) "#logger".toList = true := by
            have hall : ∀ j, j < 10 → 1 ≤ j →
                hasMismatch (dblPat.drop j) "#logger".toList = true := by decide
            exact hall k hklt h1
          exact not_prefix_append_of_mismatch hmm _ hp
        · rw [if_neg hcond] at hp
          dsimp only at hp
          have hdk : dblPat.drop k = dblPat[k] :: dblPat.drop (k + 1) :=
            List.drop_eq_getElem_cons (by simpa using hklt)
          rw [hdk] at hp ⊢
          rw [List.cons_prefix_iff] at hp ⊢
          obtain ⟨hc, htail⟩ := hp
          exact ⟨hc, ih cs (c :: prev) (k + 1) hlen (by omega) (by omega) htail⟩

/-- Rule 3 creates no occurrence of `#loggerger`: replaced occurrences
are never followed by `ger` (the `(?!ger)` lookahead evaluates on the
original buffer, whose shape the scanner's output reflects). -/
theorem subn3_preserves_no_dbl :
    ∀ n u prev, u.length ≤ n → ¬ dblPat <:+: u → ¬ dblPat <:+: (subn3 prev u).1 := by
  intro n
  induction n with
  | zero =>
    intro u prev hu hng
    have hu0 : u = [] := List.length_eq_zero.mp (Nat.le_zero.mp hu)
    subst hu0
    rw [subn3_nil]
    exact hng
  | succ n ih =>
    intro u prev hu hng
    match u with
    | [] => rw [subn3_nil]; exact hng
    | c :: cs =>
      rw [subn3_cons]
      have hlen : cs.length ≤ n := by
        simp only [List.length_cons] at hu; omega
      have hngcs : ¬ dblPat <:+: cs := fun h => hng (List.infix_cons h)
      by_cases hcond : ((c == '#') && "log".toList.isPrefixOf cs &&
          lb3 prev && la3 (cs.drop 3)) = true
      · rw [if_pos hcond]
        dsimp only
        have hla : la3 (cs.drop 3) = true := by
          simp only [Bool.and_eq_true] at hcond
          exact hcond.2
        have hger : ("ger".toList.isPrefixOf (cs.drop 3)) = false := by
          unfold la3 at hla
          simp only [Bool.and_eq_true, Bool.not_eq_true'] at hla
          exact hla.1
        have hngd : ¬ dblPat <:+: cs.drop 3 :=
          fun h => hngcs (h.trans (List.drop_suffix 3 cs).isInfix)
        have hdlen : (cs.drop 3).length ≤ n := by
          simp only [List.length_drop]; omega
        have hrec := ih (cs.drop 3) ('g' :: 'o' :: 'l' :: '#' :: prev) hdlen hngd
        intro hinf
        rcases infix_append_split hinf with hA | hB | ⟨k, hk0, hklen, hkl, hkr⟩
        · exact absurd hA (by decide)
        · exact hrec hB
        · have hklen10 : k < 10 := by simpa using hklen
          by_cases hk7 : k = 7
          · subst hk7
            have h7 : dblPat.drop 7 <+: cs.drop 3 :=
              subn3_prefix_reflect (cs.drop 3).length (cs.drop 3)
                ('g' :: 'o' :: 'l' :: '#' :: prev) 7 (Nat.le_refl _)
                (by omega) (by omega) hkr
            have hd7 : dblPat.drop 7 = "ger".toList := by decide
            rw [hd7] at h7
            exact absurd (List.isPrefixOf_iff_prefix.mpr h7) (by rw [hger]; simp)
          · have hall : ∀ j, j < 10 → 0 < j → j ≠ 7 →
                ¬ (dblPat.take j) <:+ "#logger".toList := by decide
            exact hall k hklen10 hk0 hk7 hkl
      · rw [if_neg hcond]
        dsimp only
        intro hinf
        rw [List.infix_cons_iff] at hinf
        rcases hinf with hpre | hinf2
        · have hd1 : dblPat = '#' :: dblPat.drop 1 := by decide
          rw [hd1, List.cons_prefix_iff] at hpre
          obtain ⟨hc, htail⟩ := hpre
          have h1 : dblPat.drop 1 <+: cs :=
            subn3_prefix_reflect cs.length cs (c :: prev) 1 (Nat.le_refl _)
              (Nat.le_refl 1) (by omega) htail
          exact hng (by rw [hd1]; exact (List.cons_prefix_iff.mpr ⟨hc, h1⟩).isInfix)
        · exact ih cs (c :: prev) hlen hngcs hinf2

/-- Helper: the first projection of an `ite` of pairs avoids a pattern
when both branches do. -/
theorem ite_fst_no_occ {g : List Char} {c : Prop} [Decidable c]
    {a b : List Char × Nat} (ha : ¬ g <:+: a.1) (hb : ¬ g <:+: b.1) :
    ¬ g <:+: (if c then a else b).1 := by
  split
  · exact ha
  · exact hb

/-- C3: applying the three substitution rules in the given order never
double-replaces: if the input text does not contain `#loggerger`, the
output text does not contain it either. -/
theorem c3_no_double_replacement (t : List Char)
    (h : ¬ dblPat <:+: t) : ¬ dblPat <:+: (applyPatterns t).1 := by
  have h1 : ¬ dblPat <:+: (subn1 t).1 := by
    unfold subn1
    exact subnLit_preserves_no_occ 't' "his.#log(".toList "this.#logger(".toList
      dblPat (by decide) (by decide) (by decide) (by decide) t.length t
      (Nat.le_refl _) h
  unfold applyPatterns
  dsimp only
  apply ite_fst_no_occ
  · apply subn3_preserves_no_dbl _ _ [] (Nat.le_refl _)
    exact ite_fst_no_occ
      (by
        apply subn2_preserves_no_dbl _ _ (Nat.le_refl _)
        exact ite_fst_no_occ h1 h)
      (ite_fst_no_occ h1 h)
  · exact ite_fst_no_occ
      (by
        apply subn2_preserves_no_dbl _ _ (Nat.le_refl _)
        exact ite_fst_no_occ h1 h)
      (ite_fst_no_occ h1 h)

/-- Witness for C3 at a text exercising all three rules. -/
theorem c3_no_double_replacement_witness :
    ¬ dblPat <:+: ("this.#log(a); #log(b) ".toList ++ [lbrace] ++ " #log".toList) ∧
    ¬ dblPat <:+:
      (applyPatterns ("this.#log(a); #log(b) ".toList ++ [lbrace] ++ " #log".toList)).1 :=
  ⟨by decide,
   c3_no_double_replacement ("this.#log(a); #log(b) ".toList ++ [lbrace] ++ " #log".toList)
     (by decide)⟩
